import Mathlib

/-!
Verification of the segment model and cursor/selection controller of the
`segmented-input` library.

Strings are modelled as `List Char`; JavaScript numbers are modelled as
exact rationals (`ℚ`).  Fallible JavaScript operations (`indexOf`,
`parseInt`, `parseFloat`, array indexing) return `Option`.
-/

namespace SegIn

/-- The zero-width-space guard character U+200B used around action segments. -/
def zws : Char := Char.ofNat 0x200B

/-- JS `String.prototype.indexOf(pat, start)` on char lists: the smallest
position `k` (with `start` clamped to the string length) at which `pat`
occurs in `s`; `none` when `pat` does not occur at or after `start`. -/
def strIndexOf (s pat : List Char) (start : Nat) : Option Nat :=
  ((List.range (s.length + 1)).drop (min start s.length)).find?
    (fun k => decide (pat <+: s.drop k))

/-- Numeric value of a digit character, letters case-insensitively from 10
(as in JS `parseInt`); `none` for non-alphanumeric characters. -/
def digitVal (c : Char) : Option Nat :=
  if '0' ≤ c ∧ c ≤ '9' then some (c.toNat - '0'.toNat)
  else if 'a' ≤ c ∧ c ≤ 'z' then some (c.toNat - 'a'.toNat + 10)
  else if 'A' ≤ c ∧ c ≤ 'Z' then some (c.toNat - 'A'.toNat + 10)
  else none

/-- Maximal leading run of digits valid in the given radix. -/
def takeDigits (radix : Nat) : List Char → List Nat
  | [] => []
  | c :: cs =>
    match digitVal c with
    | some d => if d < radix then d :: takeDigits radix cs else []
    | none => []

/-- JS `parseInt(s, radix)`: skip leading whitespace, read an optional sign,
strip a `0x`/`0X` prefix when the radix is 16, then read the maximal prefix of
digits valid in the radix; `none` (JS `NaN`) when no digit is consumed or the
radix is out of range (a radix of 0 means 10). -/
def jsParseInt (s : List Char) (radix : Nat) : Option Int :=
  let radix := if radix = 0 then 10 else radix
  if radix < 2 ∨ 36 < radix then none
  else
    let s := s.dropWhile (fun c => c = ' ' ∨ c = '\t' ∨ c = '\n' ∨ c = '\r')
    let signed : Int × List Char :=
      match s with
      | '-' :: rest => (-1, rest)
      | '+' :: rest => (1, rest)
      | _ => (1, s)
    let s := signed.2
    let s :=
      if radix = 16 then
        match s with
        | '0' :: 'x' :: rest => rest
        | '0' :: 'X' :: rest => rest
        | _ => s
      else s
    match takeDigits radix s with
    | [] => none
    | ds => some (signed.1 * ds.foldl (fun acc d => acc * (radix : Int) + (d : Int)) 0)

/-- Number of digits after the decimal point in the decimal rendering of `q`
(JS `String(q).split('.')[1].length` for numbers with a finite decimal
expansion; JS doubles have fewer than 1100 fractional digits). -/
def decDigits (q : ℚ) : Nat :=
  (((List.range 1100).find? (fun d => decide ((q * 10 ^ d).den = 1))).getD 0)

/-- JS `Math.round`: round half toward positive infinity. -/
def jsRound (q : ℚ) : Int := ⌊q + 1 / 2⌋

/-- JS `Number.prototype.toFixed(f)`: round `|x| * 10^f` to the nearest
integer (ties to the larger), then render a sign, the integer digits and
exactly `f` fractional digits. -/
def jsToFixed (x : ℚ) (f : Nat) : List Char :=
  let sign : List Char := if x < 0 then ['-'] else []
  let n : Nat := (⌊|x| * 10 ^ f + 1 / 2⌋).toNat
  let ds : List Char := Nat.toDigits 10 n
  let ds : List Char := List.replicate (f + 1 - ds.length) '0' ++ ds
  sign ++ if f = 0 then ds else ds.take (ds.length - f) ++ '.' :: ds.drop (ds.length - f)

/-- JS `Number.prototype.toString(radix)` for integral values (lowercase
digit letters, leading minus sign for negative values). -/
def jsIntToString (n : Int) (radix : Nat) : List Char :=
  if n < 0 then '-' :: Nat.toDigits radix n.natAbs else Nat.toDigits radix n.toNat

/-- JS `String(q)` for a number with a finite decimal expansion: an integer
renders without a decimal point, other values render with their digits. -/
def ratToString (q : ℚ) : List Char :=
  if q.den = 1 then jsIntToString q.num 10 else jsToFixed q (decDigits q)

/-- Maximal leading run of decimal digit characters. -/
def takeDecDigits : List Char → List Char
  | [] => []
  | c :: cs => if '0' ≤ c ∧ c ≤ '9' then c :: takeDecDigits cs else []

/-- Value of a run of decimal digit characters. -/
def decValue (ds : List Char) : Nat :=
  ds.foldl (fun acc c => acc * 10 + (c.toNat - '0'.toNat)) 0

/-- JS `parseFloat(s)`: skip leading whitespace, read an optional sign, a run
of integer digits, an optional fractional part and an optional exponent;
`none` (JS `NaN`) when no mantissa digit is consumed. -/
def jsParseFloat (s : List Char) : Option ℚ :=
  let s := s.dropWhile (fun c => c = ' ' ∨ c = '\t' ∨ c = '\n' ∨ c = '\r')
  let signed : ℚ × List Char :=
    match s with
    | '-' :: rest => (-1, rest)
    | '+' :: rest => (1, rest)
    | _ => (1, s)
  let s := signed.2
  let intPart := takeDecDigits s
  let s := s.drop intPart.length
  let fracPart : List Char :=
    match s with
    | '.' :: rest => takeDecDigits rest
    | _ => []
  let s := match s with
    | '.' :: rest => rest.drop fracPart.length
    | _ => s
  if intPart = [] ∧ fracPart = [] then none
  else
    let mantissa : ℚ :=
      (decValue intPart : ℚ) + (decValue fracPart : ℚ) / 10 ^ fracPart.length
    let expo : Int :=
      match s with
      | 'e' :: '-' :: rest => -(decValue (takeDecDigits rest) : Int)
      | 'E' :: '-' :: rest => -(decValue (takeDecDigits rest) : Int)
      | 'e' :: '+' :: rest => (decValue (takeDecDigits rest) : Int)
      | 'E' :: '+' :: rest => (decValue (takeDecDigits rest) : Int)
      | 'e' :: rest => (decValue (takeDecDigits rest) : Int)
      | 'E' :: rest => (decValue (takeDecDigits rest) : Int)
      | _ => 0
    some (signed.1 * mantissa * 10 ^ expo)

/-- The `{start, end, value}` triple computed by `getSegmentRanges`: the
character span of one segment inside the formatted string.  The source's
`end` field is named `endPos` because `end` is a Lean keyword. -/
structure Range where
  start : Nat
  endPos : Nat
  value : List Char
deriving DecidableEq, Repr

instance : Inhabited Range := ⟨⟨0, 0, []⟩⟩

/-- The scan loop of `getSegmentRanges`: for each segment value in order,
find its first occurrence at or after the advancing search position; on a
find record `[start, start+len)` and advance, otherwise record a zero-width
range at the current search position and do not advance. -/
def rangesGo (formatted : List Char) : List (List Char) → Nat → List Range
  | [], _ => []
  | v :: vs, searchFrom =>
    match strIndexOf formatted v searchFrom with
    | none => ⟨searchFrom, searchFrom, v⟩ :: rangesGo formatted vs searchFrom
    | some s => ⟨s, s + v.length, v⟩ :: rangesGo formatted vs (s + v.length)

/-- `getSegmentRanges(value, parse, format)` from `segmented-input.js`:
compute the start/end character positions of each segment value within the
normalised formatted string. -/
def getSegmentRanges (value : List Char)
    (parse : List Char → List (List Char))
    (format : List (List Char) → List Char) : List Range :=
  rangesGo (format (parse value)) (parse value) 0

/-- The first loop of `getCursorSegment`: index of the first range containing
the cursor position, inclusive at both ends. -/
def findHit (cursorPos : Int) : List Range → Option Nat
  | [] => none
  | r :: rest =>
    if (r.start : Int) ≤ cursorPos ∧ cursorPos ≤ (r.endPos : Int) then some 0
    else (findHit cursorPos rest).map (· + 1)

/-- The separator loop of `getCursorSegment`: for the first adjacent pair
with the cursor strictly between them, the nearer neighbour's index, ties
resolving to the left. -/
def findSep (cursorPos : Int) : List Range → Option Nat
  | r1 :: r2 :: rest =>
    if (r1.endPos : Int) < cursorPos ∧ cursorPos < (r2.start : Int) then
      some (if cursorPos - (r1.endPos : Int) ≤ (r2.start : Int) - cursorPos then 0 else 1)
    else (findSep cursorPos (r2 :: rest)).map (· + 1)
  | _ => none

/-- `getCursorSegment(cursorPos, segmentRanges)` from `segmented-input.js`:
the segment index a cursor position falls within, the nearest segment when
the cursor sits on a separator, clamped to `[0, length - 1]`. -/
def getCursorSegment (cursorPos : Int) (segmentRanges : List Range) : Nat :=
  match segmentRanges with
  | [] => 0
  | r0 :: rest =>
    match findHit cursorPos (r0 :: rest) with
    | some i => i
    | none =>
      if cursorPos < (r0.start : Int) then 0
      else if cursorPos > ((rest.getLastD r0).endPos : Int) then
        (r0 :: rest).length - 1
      else
        match findSep cursorPos (r0 :: rest) with
        | some i => i
        | none => 0

namespace SI

/-!
The `SegmentedInput` class of `src/segmented-input.js` (the snapshot with
placeholder handling, typed-character buffering, auto-advance and validity).
Its segment schema has no action/enum fields.
-/

/-- Segment metadata as documented in the `src/segmented-input.js`
constructor: default `value`, display `placeholder`, `min`/`max` clamp
bounds, `step`, `radix`, a single-character `pattern` filter and an explicit
`maxLength`. -/
structure Seg where
  value : Option (List Char) := none
  placeholder : Option (List Char) := none
  min : Option ℚ := none
  max : Option ℚ := none
  step : Option ℚ := none
  radix : Option Nat := none
  pattern : Option (Char → Bool) := none
  maxLength : Option Nat := none

/-- Constructor options: the segment list, the integrator's `format`/`parse`
pair and the custom-validity message (with the constructor's default already
applied). -/
structure Config where
  segments : List Seg
  format : List (List Char) → List Char
  parse : List Char → List (List Char)
  invalidMessage : List Char

/-- The mutable state of one attached instance: the host input's text, the
active segment index, the typed-character buffer, the custom-validity
message last written to the input, and the selection span last asserted. -/
structure St where
  value : List Char
  activeSegment : Nat
  segmentBuffer : List Char
  customValidity : List Char
  selection : Option (Nat × Nat)

/-- Placeholder resolution for one segment:
`s.placeholder ?? String(s.value ?? s.min ?? 0)`. -/
def placeholderOf (s : Seg) : List Char :=
  s.placeholder.getD (s.value.getD (match s.min with
    | some m => SegIn.ratToString m
    | none => ['0']))

/-- `this._placeholderValues`: the per-segment placeholder strings. -/
def placeholderValues (cfg : Config) : List (List Char) :=
  cfg.segments.map placeholderOf

/-- `this._formattedPlaceholder`: the formatted placeholder string. -/
def formattedPlaceholder (cfg : Config) : List Char :=
  cfg.format (placeholderValues cfg)

/-- The message `_updateValidity` derives from an input value: empty for the
empty string, the invalid message when some segment's parsed value equals
its placeholder, empty otherwise. -/
def computeValidity (cfg : Config) (v : List Char) : List Char :=
  if v = [] then []
  else
    let values := cfg.parse v
    let ps := placeholderValues cfg
    if (List.range ps.length).any (fun i => decide (values[i]? = ps[i]?)) then
      cfg.invalidMessage
    else []

/-- `this._updateValidity()`: synchronise the custom validity with the
current placeholder state. -/
def updateValidity (cfg : Config) (st : St) : St :=
  { st with customValidity := computeValidity cfg st.value }

/-- `this.getSegmentRanges()`: ranges of the current input value. -/
def getSegmentRangesM (cfg : Config) (st : St) : List SegIn.Range :=
  SegIn.getSegmentRanges st.value cfg.parse cfg.format

/-- `highlightSegment(input, idx, ranges)`: select the segment's span when
its range exists. -/
def highlightSegment (st : St) (idx : Nat) (rs : List SegIn.Range) : St :=
  match rs[idx]? with
  | some r => { st with selection := some (r.start, r.endPos) }
  | none => st

/-- `this.focusSegment(index)`: clamp the index to `[0, segments.length-1]`,
make it active, clear the typed-character buffer and highlight it. -/
def focusSegment (cfg : Config) (st : St) (index : Int) : St :=
  let clamped := (max 0 (min index ((cfg.segments.length : Int) - 1))).toNat
  let st := { st with activeSegment := clamped, segmentBuffer := [] }
  highlightSegment st clamped (getSegmentRangesM cfg st)

/-- `this.getSegmentValue(index)`: the parsed value at `index`, `none` (JS
`undefined`) outside the parsed array's bounds. -/
def getSegmentValue (cfg : Config) (st : St) (index : Int) : Option (List Char) :=
  if index < 0 then none else (cfg.parse st.value)[index.toNat]?

/-- `this._isDecimalSegment(seg)`: the decimal rendering of
`seg.step ?? 1` contains a decimal point. -/
def isDecimalSegment (seg : Seg) : Bool :=
  decide ((seg.step.getD 1).den ≠ 1)

/-- `this._shouldAutoAdvance(seg, buffer, radix)`: an explicit `maxLength`
wins; without a `max` never advance; decimal segments advance at the length
of `max.toFixed(decimals)`; integer segments advance at the length of
`floor(max).toString(radix)` or when `parseInt(buffer, radix) * radix`
already exceeds `max`. -/
def shouldAutoAdvance (seg : Seg) (buffer : List Char) (radix : Nat) : Bool :=
  match seg.maxLength with
  | some ml => buffer.length ≥ ml
  | none =>
    match seg.max with
    | none => false
    | some mx =>
      if isDecimalSegment seg then
        let decimals := match seg.step with
          | none => 0
          | some q => SegIn.decDigits q
        let maxLen := (SegIn.jsToFixed mx decimals).length
        buffer.length ≥ maxLen
      else
        let maxLen := (SegIn.jsIntToString ⌊mx⌋ radix).length
        if buffer.length ≥ maxLen then true
        else
          match SegIn.jsParseInt buffer radix with
          | none => false
          | some v => decide (((v * (radix : Int) : Int) : ℚ) > mx)

/-- `this._advanceSegment()`: focus the next segment, or on the last segment
just clear the buffer and re-highlight. -/
def advanceSegment (cfg : Config) (st : St) : St :=
  if st.activeSegment < cfg.segments.length - 1 then
    focusSegment cfg st ((st.activeSegment : Int) + 1)
  else
    let st := { st with segmentBuffer := [] }
    highlightSegment st st.activeSegment (getSegmentRangesM cfg st)

/-- `this._handleSegmentInput(key)`: materialise the placeholder when empty,
reject a pattern-failing character, absorb an overflowing digit by advancing,
otherwise append to the buffer, write it into the active segment, refresh
validity and selection, and auto-advance when indicated. -/
def handleSegmentInput (cfg : Config) (st : St) (key : Char) : St :=
  match cfg.segments[st.activeSegment]? with
  | none => st
  | some seg =>
    let st := if st.value = [] then { st with value := formattedPlaceholder cfg } else st
    if (seg.pattern.map (fun p => p key)).getD true = false then st
    else
      let radix := seg.radix.getD 10
      let newBuffer := st.segmentBuffer ++ [key]
      let overflow : Bool :=
        match seg.max with
        | some mx =>
          !isDecimalSegment seg &&
            (match SegIn.jsParseInt newBuffer radix with
             | some v => decide ((v : ℚ) > mx)
             | none => false)
        | none => false
      if overflow then advanceSegment cfg st
      else
        let st := { st with segmentBuffer := newBuffer }
        let values := (cfg.parse st.value).set st.activeSegment st.segmentBuffer
        let st := { st with value := cfg.format values }
        let st := updateValidity cfg st
        let st := highlightSegment st st.activeSegment (getSegmentRangesM cfg st)
        if shouldAutoAdvance seg st.segmentBuffer radix then advanceSegment cfg st else st

/-- The `Backspace` case of `this._onKeydown`: reset the active segment's
slot to its placeholder string, clear the buffer, reformat, refresh validity
and re-highlight the active segment. -/
def backspace (cfg : Config) (st : St) : St :=
  let placeholder := (placeholderValues cfg).getD st.activeSegment []
  let st := { st with segmentBuffer := [] }
  let values := (cfg.parse st.value).set st.activeSegment placeholder
  let st := { st with value := cfg.format values }
  let st := updateValidity cfg st
  highlightSegment st st.activeSegment (getSegmentRangesM cfg st)

/-- `this._isPlaceholderState()`: the value is empty or every segment's
parsed value equals its placeholder. -/
def isPlaceholderState (cfg : Config) (st : St) : Bool :=
  if st.value = [] then true
  else
    let values := cfg.parse st.value
    let ps := placeholderValues cfg
    (List.range ps.length).all (fun i => decide (values[i]? = ps[i]?))

/-- `this._onBlurOut()`: clear the field and reset state when every segment
still shows its placeholder, then recompute validity. -/
def onBlurOut (cfg : Config) (st : St) : St :=
  let st :=
    if isPlaceholderState cfg st then
      { st with value := [], activeSegment := 0, segmentBuffer := [] }
    else st
  updateValidity cfg st

end SI

namespace SIv2

/-!
The final `SegmentedInput` class snapshot (the `#`-private-field version):
action segments with zero-width-space guards, enum `options` cycling, and
validity that ignores action segments.
-/

/-- Segment metadata of the final class: the `SI.Seg` fields plus `type`
(`'action'` or `'text'`), an `options` list, the presence of an `onClick`
callback, and the `selectable` flag for action segments. -/
structure Seg where
  value : Option (List Char) := none
  placeholder : Option (List Char) := none
  type : Option (List Char) := none
  options : Option (List (List Char)) := none
  onClick : Bool := false
  selectable : Bool := false
  min : Option ℚ := none
  max : Option ℚ := none
  step : Option ℚ := none
  radix : Option Nat := none
  pattern : Option (Char → Bool) := none
  maxLength : Option Nat := none

/-- Constructor options of the final class (the action CSS class name is not
modelled beyond a boolean on the state). -/
structure Config where
  segments : List Seg
  format : List (List Char) → List Char
  parse : List Char → List (List Char)
  invalidMessage : List Char

/-- Instance state: the host input's text, active segment, typed-character
buffer, custom validity, asserted selection, and whether the action CSS
class is currently on the input. -/
structure St where
  value : List Char
  activeSegment : Nat
  segmentBuffer : List Char
  customValidity : List Char
  selection : Option (Nat × Nat)
  actionClassOn : Bool

/-- `this.#isActionSegment(seg)`: the segment has `type: 'action'` or an
`onClick` callback. -/
def isActionSegment (s : Seg) : Bool :=
  s.type == some "action".toList || s.onClick

/-- `this.#stripZWS(str)`: remove every U+200B character. -/
def stripZWS (s : List Char) : List Char :=
  s.filter (fun c => c ≠ SegIn.zws)

/-- One splice of `#formatGuarded`: wrap the span `[s, e)` in zero-width
spaces.  Processing ranges from the right keeps earlier offsets valid. -/
def spliceGuard (acc : List Char) (se : Nat × Nat) : List Char :=
  acc.take se.1 ++ SegIn.zws :: ((acc.drop se.1).take (se.2 - se.1))
    ++ SegIn.zws :: acc.drop se.2

/-- The scan of `#formatGuarded`: locate each value left to right with an
advancing search position and collect the spans of action segments. -/
def actionScan (raw : List Char) : List (List Char × Bool) → Nat → List (Nat × Nat)
  | [], _ => []
  | (v, isAct) :: rest, searchFrom =>
    match SegIn.strIndexOf raw v searchFrom with
    | none => actionScan raw rest searchFrom
    | some s =>
      let tail := actionScan raw rest (s + v.length)
      if isAct then (s, s + v.length) :: tail else tail

/-- `this.#formatGuarded(values)`: the integrator's `format`, with each
action segment's value wrapped in zero-width-space guards (no-op when no
segment is an action segment). -/
def formatGuarded (cfg : Config) (values : List (List Char)) : List Char :=
  let raw := cfg.format values
  if ¬ cfg.segments.any isActionSegment then raw
  else
    let tagged := List.zipWith (fun v i => (v, (cfg.segments[i]?).any isActionSegment))
      values (List.range values.length)
    (actionScan raw tagged 0).foldr (fun se acc => spliceGuard acc se) raw

/-- `this.#currentValues()`: parse the current value with guards stripped. -/
def currentValues (cfg : Config) (st : St) : List (List Char) :=
  cfg.parse (stripZWS st.value)

/-- Placeholder resolution, as in the earlier snapshot. -/
def placeholderOf (s : Seg) : List Char :=
  s.placeholder.getD (s.value.getD (match s.min with
    | some m => SegIn.ratToString m
    | none => ['0']))

/-- `this.#placeholderValues`. -/
def placeholderValues (cfg : Config) : List (List Char) :=
  cfg.segments.map placeholderOf

/-- `this.#formattedPlaceholder`: the guarded formatted placeholder string. -/
def formattedPlaceholder (cfg : Config) : List Char :=
  formatGuarded cfg (placeholderValues cfg)

/-- The message `#updateValidity` derives: empty for the empty value, the
invalid message when some non-action segment's current value equals its
placeholder, empty otherwise. -/
def computeValidity (cfg : Config) (v : List Char) : List Char :=
  if v = [] then []
  else
    let values := cfg.parse (stripZWS v)
    let ps := placeholderValues cfg
    if (List.range ps.length).any (fun i =>
        !((cfg.segments[i]?).any isActionSegment) && decide (values[i]? = ps[i]?)) then
      cfg.invalidMessage
    else []

/-- `this.#updateValidity()`. -/
def updateValidity (cfg : Config) (st : St) : St :=
  { st with customValidity := computeValidity cfg st.value }

/-- `this.getSegmentRanges()`: ranges over the guarded value, parsing with
guards stripped and formatting with guards re-applied. -/
def getSegmentRangesM (cfg : Config) (st : St) : List SegIn.Range :=
  SegIn.getSegmentRanges st.value
    (fun v => cfg.parse (stripZWS v))
    (fun v => formatGuarded cfg v)

/-- `highlightSegment` on the modelled state. -/
def highlightSegment (st : St) (idx : Nat) (rs : List SegIn.Range) : St :=
  match rs[idx]? with
  | some r => { st with selection := some (r.start, r.endPos) }
  | none => st

/-- The loop of `this.#findEditable(fromIndex, direction)`, with fuel
bounding the number of steps (each call moves by one inside the segment
list, so `segments.length + 1` steps suffice). -/
def findEditableGo (segs : List Seg) : Int → Int → Nat → Option Nat
  | _, _, 0 => none
  | i, direction, fuel + 1 =>
    if 0 ≤ i ∧ i < (segs.length : Int) then
      match segs[i.toNat]? with
      | some s =>
        if ¬ isActionSegment s then some i.toNat
        else findEditableGo segs (i + direction) direction fuel
      | none => none
    else none

/-- `this.#findEditable(fromIndex, direction)`: the first non-action segment
index scanning in the given direction, `none` when none is found. -/
def findEditable (cfg : Config) (fromIndex direction : Int) : Option Nat :=
  findEditableGo cfg.segments fromIndex direction (cfg.segments.length + 1)

/-- The target-resolution step of the final class's `focusSegment`: keep the
clamped index unless it is a non-selectable action segment, in which case
reroute to the nearest editable segment (forward first), or to nothing when
every segment is an action segment. -/
def focusTarget (cfg : Config) (clamped : Nat) : Option Nat :=
  match cfg.segments[clamped]? with
  | some s =>
    if isActionSegment s ∧ ¬ s.selectable then
      match findEditable cfg ((clamped : Int) + 1) 1 with
      | some fwd => some fwd
      | none =>
        match findEditable cfg ((clamped : Int) - 1) (-1) with
        | some bwd => some bwd
        | none => none
    else some clamped
  | none => some clamped

/-- `this.focusSegment(index)` of the final class: clamp, reroute a
non-selectable action target to the nearest editable segment, set the
action CSS class for selectable action targets, clear the buffer and
highlight (the emitted notifications are external effects). -/
def focusSegment (cfg : Config) (st : St) (index : Int) : St :=
  let clamped := (max 0 (min index ((cfg.segments.length : Int) - 1))).toNat
  match focusTarget cfg clamped with
  | none => st
  | some cl =>
    let st := { st with activeSegment := cl, segmentBuffer := [] }
    let st :=
      match cfg.segments[cl]? with
      | some s => { st with actionClassOn := isActionSegment s && s.selectable }
      | none => { st with actionClassOn := false }
    highlightSegment st cl (getSegmentRangesM cfg st)

/-- `this.getSegmentValue(index)` of the final class. -/
def getSegmentValue (cfg : Config) (st : St) (index : Int) : Option (List Char) :=
  if index < 0 then none else (currentValues cfg st)[index.toNat]?

/-- `this.#isDecimalSegment(seg)`. -/
def isDecimalSegment (seg : Seg) : Bool :=
  decide ((seg.step.getD 1).den ≠ 1)

/-- `this.#adjustSegment(index, direction)`: no-op on action and `'text'`
segments; enum segments rotate through `options` circularly from the first
index of the current value (an absent value counts as index 0); numeric
segments parse, step, clamp to `[min, max]` and re-render. -/
def adjustSegment (cfg : Config) (st : St) (index : Nat) (direction : Int) : St :=
  match cfg.segments[index]? with
  | none => st
  | some seg =>
    if isActionSegment seg then st
    else if seg.type = some "text".toList then st
    else
      match seg.options with
      | some opts =>
        let st := if st.value = [] then { st with value := formattedPlaceholder cfg } else st
        let values := currentValues cfg st
        let idx : Nat :=
          match values[index]? with
          | none => 0
          | some v =>
            match opts.findIdx? (fun o => decide (o = v)) with
            | some i => i
            | none => 0
        let newIdx : Nat := (((idx : Int) + direction + (opts.length : Int)) % (opts.length : Int)).toNat
        let values := values.set index (opts.getD newIdx [])
        let st := { st with value := formatGuarded cfg values }
        let st := focusSegment cfg st index
        updateValidity cfg st
      | none =>
        let st := if st.value = [] then { st with value := formattedPlaceholder cfg } else st
        let radix := seg.radix.getD 10
        let values := currentValues cfg st
        let step := seg.step.getD 1
        let current : Option ℚ :=
          if radix = 10 then SegIn.jsParseFloat (values.getD index [])
          else (SegIn.jsParseInt (values.getD index []) radix).map (fun n => (n : ℚ))
        let current : ℚ :=
          match current with
          | some c => c
          | none =>
            if radix = 10 then (SegIn.jsParseFloat (seg.value.getD "0".toList)).getD 0
            else ((SegIn.jsParseInt (seg.value.getD "0".toList) radix).map (fun n => (n : ℚ))).getD 0
        let next := current + direction * step
        let next := match seg.max with
          | some mx => if next > mx then mx else next
          | none => next
        let next := match seg.min with
          | some mn => if next < mn then mn else next
          | none => next
        let rendered : List Char :=
          if radix ≠ 10 then
            (SegIn.jsIntToString (SegIn.jsRound next) radix).map Char.toUpper
          else
            let decimals := SegIn.decDigits step
            if decimals > 0 then SegIn.jsToFixed next decimals
            else SegIn.jsIntToString (SegIn.jsRound next) 10
        let values := values.set index rendered
        let st := { st with value := formatGuarded cfg values }
        let st := focusSegment cfg st index
        updateValidity cfg st

end SIv2

end SegIn

namespace SegIn

/-- Helper: dropping `m` elements of `List.range n` leaves `range' m (n-m)`. -/
lemma dropRange (n m : Nat) : (List.range n).drop m = List.range' m (n - m) := by
  apply List.ext_getElem?
  intro i
  rw [List.getElem?_drop]
  rcases lt_or_le (m + i) n with h | h
  · rw [List.getElem?_range h, List.getElem?_range' _ _ (by omega)]
    simp
  · rw [List.getElem?_eq_none (by simpa using h), List.getElem?_eq_none (by simp; omega)]

/-- A successful `strIndexOf` find lies between the (clamped) start position
and the end of the string, and the pattern occurs there. -/
lemma strIndexOf_eq_some {s pat : List Char} {c k : Nat}
    (h : strIndexOf s pat c = some k) :
    min c s.length ≤ k ∧ k + pat.length ≤ s.length ∧ pat <+: s.drop k := by
  unfold strIndexOf at h
  have hk := List.mem_of_find?_eq_some h
  have hp := List.find?_some h
  rw [dropRange, List.mem_range'] at hk
  obtain ⟨i, hi, hki⟩ := hk
  simp only [decide_eq_true_eq] at hp
  have hlen : pat.length ≤ (s.drop k).length := hp.length_le
  rw [List.length_drop] at hlen
  refine ⟨by omega, by omega, hp⟩

/-- The empty pattern is always found, at the start position itself. -/
lemma strIndexOf_nil {s : List Char} {c : Nat} (h : c ≤ s.length) :
    strIndexOf s [] c = some c := by
  unfold strIndexOf
  rw [dropRange, Nat.min_eq_left h]
  have hs : s.length + 1 - c = (s.length - c) + 1 := by omega
  rw [hs, List.range'_succ]
  simp [List.find?]

/-- Relational mirror of the `getSegmentRanges` scan, used to reason about
the produced ranges together with the advancing search position. -/
inductive RangesSpec (f : List Char) : Nat → List (List Char) → List Range → Prop
  | nil {c} : RangesSpec f c [] []
  | found {c v s vs rs} : strIndexOf f v c = some s →
      RangesSpec f (s + v.length) vs rs →
      RangesSpec f c (v :: vs) (⟨s, s + v.length, v⟩ :: rs)
  | fallback {c v vs rs} : strIndexOf f v c = none →
      RangesSpec f c vs rs →
      RangesSpec f c (v :: vs) (⟨c, c, v⟩ :: rs)

/-- The scan loop satisfies its relational mirror. -/
lemma rangesGo_spec (f : List Char) :
    ∀ (vs : List (List Char)) (c : Nat), RangesSpec f c vs (rangesGo f vs c) := by
  intro vs
  induction vs with
  | nil => intro c; exact .nil
  | cons v vs ih =>
    intro c
    unfold rangesGo
    cases h : strIndexOf f v c with
    | none => exact .fallback h (ih c)
    | some s => exact .found h (ih _)

lemma RangesSpec.length_eq {f : List Char} {c : Nat} {vs : List (List Char)}
    {rs : List Range} (h : RangesSpec f c vs rs) : rs.length = vs.length := by
  induction h with
  | nil => rfl
  | found _ _ ih => simpa using ih
  | fallback _ _ ih => simpa using ih

lemma RangesSpec.map_value {f : List Char} {c : Nat} {vs : List (List Char)}
    {rs : List Range} (h : RangesSpec f c vs rs) : rs.map Range.value = vs := by
  induction h with
  | nil => rfl
  | found _ _ ih => simpa using ih
  | fallback _ _ ih => simpa using ih

/-- The search-position update step, recovered from a recorded range: a
found range moves the position to its end, a fallback keeps it. -/
def advanceCursor (c : Nat) (r : Range) : Nat :=
  if r.endPos = r.start + r.value.length then r.endPos else c

/-- The search position in force when the scan processed index `j`. -/
def cursorAt (rs : List Range) (j : Nat) : Nat :=
  (rs.take j).foldl advanceCursor 0

/-- A range that records a successful find: its end is its start plus its
value's length. -/
def Range.found (r : Range) : Prop := r.endPos = r.start + r.value.length

instance (r : Range) : Decidable r.found :=
  inferInstanceAs (Decidable (_ = _))

lemma RangesSpec.getElem_spec {f : List Char} {c : Nat} {vs : List (List Char)}
    {rs : List Range} (h : RangesSpec f c vs rs) (hc : c ≤ f.length) :
    ∀ (j : Nat) (r : Range), rs[j]? = some r →
      ((∀ s, strIndexOf f r.value ((rs.take j).foldl advanceCursor c) = some s →
          r.start = s ∧ r.endPos = r.start + r.value.length)
       ∧ (strIndexOf f r.value ((rs.take j).foldl advanceCursor c) = none →
          r.start = (rs.take j).foldl advanceCursor c ∧ r.endPos = r.start)) := by
  induction h with
  | nil => intro j r hr; simp at hr
  | @found c' v s vs' rs' hfind _ ih =>
    intro j r hr
    have hc' : s + v.length ≤ f.length := (strIndexOf_eq_some hfind).2.1
    match j with
    | 0 =>
      simp only [List.getElem?_cons_zero, Option.some.injEq] at hr
      subst hr
      constructor
      · intro s' hs'
        simp only [List.take_zero, List.foldl_nil] at hs'
        rw [hfind] at hs'
        cases hs'
        exact ⟨rfl, rfl⟩
      · intro hnone
        simp only [List.take_zero, List.foldl_nil] at hnone
        rw [hfind] at hnone
        cases hnone
    | j + 1 =>
      simp only [List.getElem?_cons_succ] at hr
      have hstep : ((⟨s, s + v.length, v⟩ : Range) :: rs').take (j + 1)
          = (⟨s, s + v.length, v⟩ : Range) :: rs'.take j := by
        simp [List.take_succ_cons]
      have hadv : advanceCursor c' ⟨s, s + v.length, v⟩ = s + v.length := by
        simp [advanceCursor]
      rw [hstep]
      simp only [List.foldl_cons, hadv]
      exact ih hc' j r hr
  | @fallback c' v vs' rs' hfind _ ih =>
    intro j r hr
    have hvne : v ≠ [] := by
      intro hv
      subst hv
      rw [strIndexOf_nil hc] at hfind
      cases hfind
    match j with
    | 0 =>
      simp only [List.getElem?_cons_zero, Option.some.injEq] at hr
      subst hr
      constructor
      · intro s' hs'
        simp only [List.take_zero, List.foldl_nil] at hs'
        rw [hfind] at hs'
        cases hs'
      · intro _
        exact ⟨rfl, rfl⟩
    | j + 1 =>
      simp only [List.getElem?_cons_succ] at hr
      have hadv : advanceCursor c' ⟨c', c', v⟩ = c' := by
        have : v.length ≠ 0 := by
          simpa [List.length_eq_zero] using hvne
        simp only [advanceCursor]
        rw [if_neg]
        simp only [ne_eq] at this
        omega
      have hstep : ((⟨c', c', v⟩ : Range) :: rs').take (j + 1)
          = (⟨c', c', v⟩ : Range) :: rs'.take j := by
        simp [List.take_succ_cons]
      rw [hstep]
      simp only [List.foldl_cons, hadv]
      exact ih hc j r hr

/-- Every found range starts at or after the search position the scan was
entered with. -/
lemma RangesSpec.start_ge {f : List Char} {c : Nat} {vs : List (List Char)}
    {rs : List Range} (h : RangesSpec f c vs rs) (hc : c ≤ f.length) :
    ∀ (j : Nat) (r : Range), rs[j]? = some r → r.found → c ≤ r.start := by
  induction h with
  | nil => intro j r hr; simp at hr
  | @found c' v s vs' rs' hfind _ ih =>
    intro j r hr _
    obtain ⟨h1, h2, _⟩ := strIndexOf_eq_some hfind
    have hcs : c' ≤ s := by
      have := Nat.min_le_left c' f.length
      omega
    match j with
    | 0 =>
      simp only [List.getElem?_cons_zero, Option.some.injEq] at hr
      subst hr
      exact hcs
    | j + 1 =>
      simp only [List.getElem?_cons_succ] at hr
      have := ih h2 j r hr ‹r.found›
      omega
  | @fallback c' v vs' rs' hfind _ ih =>
    intro j r hr hfound
    match j with
    | 0 =>
      simp only [List.getElem?_cons_zero, Option.some.injEq] at hr
      subst hr
      exact le_refl _
    | j + 1 =>
      simp only [List.getElem?_cons_succ] at hr
      exact ih hc j r hr hfound

/-- Found ranges are pairwise non-overlapping and in ascending order. -/
lemma RangesSpec.nonoverlap {f : List Char} {c : Nat} {vs : List (List Char)}
    {rs : List Range} (h : RangesSpec f c vs rs) (hc : c ≤ f.length) :
    ∀ (i j : Nat) (ri rj : Range), i < j → rs[i]? = some ri → rs[j]? = some rj →
      ri.found → rj.found → ri.endPos ≤ rj.start := by
  induction h with
  | nil => intro i j ri rj _ hi; simp at hi
  | @found c' v s vs' rs' hfind hrest ih =>
    intro i j ri rj hij hi hj hfi hfj
    have hc' : s + v.length ≤ f.length := (strIndexOf_eq_some hfind).2.1
    match i, j with
    | 0, j + 1 =>
      simp only [List.getElem?_cons_zero, Option.some.injEq] at hi
      subst hi
      simp only [List.getElem?_cons_succ] at hj
      exact hrest.start_ge hc' j rj hj hfj
    | i + 1, j + 1 =>
      simp only [List.getElem?_cons_succ] at hi hj
      exact ih hc' i j ri rj (by omega) hi hj hfi hfj
  | @fallback c' v vs' rs' hfind hrest ih =>
    intro i j ri rj hij hi hj hfi hfj
    have hvne : v ≠ [] := by
      intro hv
      subst hv
      rw [strIndexOf_nil hc] at hfind
      cases hfind
    match i, j with
    | 0, j + 1 =>
      simp only [List.getElem?_cons_zero, Option.some.injEq] at hi
      subst hi
      exfalso
      have : v.length = 0 := by
        have := hfi
        simp only [Range.found] at this
        omega
      exact hvne (List.length_eq_zero.mp this)
    | i + 1, j + 1 =>
      simp only [List.getElem?_cons_succ] at hi hj
      exact ih hc i j ri rj (by omega) hi hj hfi hfj

/-- C1: for every text and `parse`/`format` pair, `getSegmentRanges` returns
exactly one range per element of `parse(text)` (same length, same values, in
order); a range whose value is found in `format(parse(text))` at or after
the advancing search cursor has its recorded start at the found position and
`end = start + length(value)`, with ranges found this way non-overlapping
and in ascending order; a value not found yields a zero-width range
(`end = start`) at the current search position instead of an error. -/
theorem claim_C1_resolve_ranges (value : List Char)
    (parse : List Char → List (List Char)) (format : List (List Char) → List Char) :
    (getSegmentRanges value parse format).length = (parse value).length
    ∧ (getSegmentRanges value parse format).map Range.value = parse value
    ∧ (∀ (j : Nat) (r : Range), (getSegmentRanges value parse format)[j]? = some r →
        ((∀ s, strIndexOf (format (parse value)) r.value
              (cursorAt (getSegmentRanges value parse format) j) = some s →
            r.start = s ∧ r.endPos = r.start + r.value.length)
         ∧ (strIndexOf (format (parse value)) r.value
              (cursorAt (getSegmentRanges value parse format) j) = none →
            r.start = cursorAt (getSegmentRanges value parse format) j
              ∧ r.endPos = r.start)))
    ∧ (∀ (i j : Nat) (ri rj : Range), i < j →
        (getSegmentRanges value parse format)[i]? = some ri →
        (getSegmentRanges value parse format)[j]? = some rj →
        ri.found → rj.found → ri.endPos ≤ rj.start) := by
  have hspec : RangesSpec (format (parse value)) 0 (parse value)
      (getSegmentRanges value parse format) := rangesGo_spec _ _ _
  have hc : 0 ≤ (format (parse value)).length := Nat.zero_le _
  refine ⟨hspec.length_eq, hspec.map_value, ?_, ?_⟩
  · intro j r hr
    exact hspec.getElem_spec hc j r hr
  · intro i j ri rj hij hi hj hfi hfj
    exact hspec.nonoverlap hc i j ri rj hij hi hj hfi hfj

/-- Witness for C1 at the concrete text `"a.b"` with a two-segment
parse/format pair: both ranges are found and do not overlap. -/
theorem claim_C1_witness :
    (getSegmentRanges ['a', '.', 'b'] (fun _ => [['a'], ['b']])
        (fun _ => ['a', '.', 'b']))[0]? = some ⟨0, 1, ['a']⟩
    ∧ (getSegmentRanges ['a', '.', 'b'] (fun _ => [['a'], ['b']])
        (fun _ => ['a', '.', 'b']))[1]? = some ⟨2, 3, ['b']⟩
    ∧ (0 : Nat) < 1
    ∧ Range.found ⟨0, 1, ['a']⟩ ∧ Range.found ⟨2, 3, ['b']⟩
    ∧ (1 : Nat) ≤ 2 :=
  ⟨by decide, by decide, by decide, by decide, by decide,
    (claim_C1_resolve_ranges ['a', '.', 'b'] (fun _ => [['a'], ['b']])
        (fun _ => ['a', '.', 'b'])).2.2.2 0 1 ⟨0, 1, ['a']⟩ ⟨2, 3, ['b']⟩
      (by decide) (by decide) (by decide) (by decide) (by decide)⟩

end SegIn

namespace SegIn

lemma findHit_lt {pos : Int} : ∀ {rs : List Range} {i : Nat},
    findHit pos rs = some i → i < rs.length := by
  intro rs
  induction rs with
  | nil => intro i h; simp [findHit] at h
  | cons r rest ih =>
    intro i h
    unfold findHit at h
    by_cases hc : (r.start : Int) ≤ pos ∧ pos ≤ (r.endPos : Int)
    · rw [if_pos hc] at h
      cases h
      simp
    · rw [if_neg hc] at h
      cases ho : findHit pos rest with
      | none => rw [ho] at h; simp at h
      | some i' =>
        rw [ho] at h
        simp only [Option.map_some', Option.some.injEq] at h
        have := ih ho
        simp only [List.length_cons]
        omega

lemma findSep_lt {pos : Int} : ∀ {rs : List Range} {i : Nat},
    findSep pos rs = some i → i < rs.length := by
  intro rs
  induction rs with
  | nil => intro i h; simp [findSep] at h
  | cons r1 rest ih =>
    intro i h
    cases rest with
    | nil => simp [findSep] at h
    | cons r2 rest' =>
      unfold findSep at h
      by_cases hc : (r1.endPos : Int) < pos ∧ pos < (r2.start : Int)
      · rw [if_pos hc] at h
        cases h
        by_cases hd : pos - (r1.endPos : Int) ≤ (r2.start : Int) - pos <;>
          simp [hd, List.length_cons]
      · rw [if_neg hc] at h
        cases ho : findSep pos (r2 :: rest') with
        | none => rw [ho] at h; simp at h
        | some i' =>
          rw [ho] at h
          simp only [Option.map_some', Option.some.injEq] at h
          have := ih ho
          simp only [List.length_cons] at *
          omega

/-- C2: for every non-empty range list and every integer cursor offset,
including negative offsets and offsets past the end of the text,
`getCursorSegment` returns an index in `[0, n-1]`; for an empty range list
it returns 0. -/
theorem claim_C2_cursor_total (pos : Int) (rs : List Range) :
    (rs ≠ [] → getCursorSegment pos rs < rs.length)
    ∧ getCursorSegment pos [] = 0 := by
  refine ⟨?_, rfl⟩
  intro hne
  cases rs with
  | nil => exact absurd rfl hne
  | cons r0 rest =>
    cases hh : findHit pos (r0 :: rest) with
    | some i =>
      have hlt := findHit_lt hh
      simp only [List.length_cons] at hlt ⊢
      simpa [getCursorSegment, hh] using hlt
    | none =>
      by_cases h1 : pos < (r0.start : Int)
      · simp [getCursorSegment, hh, h1]
      · by_cases h2 : pos > (((rest.getLast?.getD r0).endPos : Nat) : Int)
        · simp [getCursorSegment, hh, h1, List.getLastD_eq_getLast?, h2]
        · cases hs : findSep pos (r0 :: rest) with
          | some i =>
            have hlt := findSep_lt hs
            simp only [List.length_cons] at hlt ⊢
            simpa [getCursorSegment, hh, h1, List.getLastD_eq_getLast?, h2, hs] using hlt
          | none => simp [getCursorSegment, hh, h1, List.getLastD_eq_getLast?, h2, hs]

/-- Witness for C2: a cursor far left of a one-range list still maps to a
valid index. -/
theorem claim_C2_witness :
    ([(⟨0, 2, ['a', 'b']⟩ : Range)] : List Range) ≠ []
    ∧ getCursorSegment (-5) [(⟨0, 2, ['a', 'b']⟩ : Range)] < 1 :=
  ⟨by decide,
    (claim_C2_cursor_total (-5) [(⟨0, 2, ['a', 'b']⟩ : Range)]).1 (by decide)⟩

end SegIn

namespace SegIn

/-- Adjacent ranges of a chain-ordered list satisfy the chain relation. -/
lemma chain'_adj {rs : List Range}
    (hchain : List.Chain' (fun a b => a.endPos ≤ b.start) rs)
    {j : Nat} {rj rj1 : Range} (hj : rs[j]? = some rj) (hj1 : rs[j+1]? = some rj1) :
    rj.endPos ≤ rj1.start := by
  rw [List.chain'_iff_get] at hchain
  obtain ⟨hlen1, he1⟩ := List.getElem?_eq_some.mp hj1
  obtain ⟨hlen0, he0⟩ := List.getElem?_eq_some.mp hj
  have := hchain j (by omega)
  simp only [List.get_eq_getElem] at this
  rw [he0, he1] at this
  exact this

/-- In a chain-ordered list of well-formed ranges, any earlier range ends at
or before a later range starts. -/
lemma ranges_chain_le {rs : List Range}
    (hchain : List.Chain' (fun a b => a.endPos ≤ b.start) rs)
    (hwf : ∀ r ∈ rs, r.start ≤ r.endPos) :
    ∀ (i j : Nat) (ri rj : Range), i < j → rs[i]? = some ri → rs[j]? = some rj →
      ri.endPos ≤ rj.start := by
  intro i j
  induction j with
  | zero => intro ri rj hij; omega
  | succ j ih =>
    intro ri rj hij hi hj
    rcases Nat.lt_or_ge i j with hij' | hij'
    · obtain ⟨hlen1, _⟩ := List.getElem?_eq_some.mp hj
      have hjlt : j < rs.length := by omega
      have hjm : rs[j]? = some rs[j] := List.getElem?_eq_getElem hjlt
      have h1 := ih ri rs[j] hij' hi hjm
      have h2 : rs[j].start ≤ rs[j].endPos := hwf _ (List.getElem_mem hjlt)
      have h3 := chain'_adj hchain hjm hj
      omega
    · have hieq : i = j := by omega
      subst hieq
      exact chain'_adj hchain hi hj

/-- `findHit` returning `none` means no range contains the position. -/
lemma findHit_eq_none {pos : Int} : ∀ {rs : List Range},
    findHit pos rs = none ↔
      ∀ (k : Nat) (rk : Range), rs[k]? = some rk →
        ¬((rk.start : Int) ≤ pos ∧ pos ≤ (rk.endPos : Int)) := by
  intro rs
  induction rs with
  | nil => simp [findHit]
  | cons r rest ih =>
    constructor
    · intro h k rk hk
      unfold findHit at h
      by_cases hc : (r.start : Int) ≤ pos ∧ pos ≤ (r.endPos : Int)
      · rw [if_pos hc] at h; cases h
      · rw [if_neg hc] at h
        match k with
        | 0 =>
          simp only [List.getElem?_cons_zero, Option.some.injEq] at hk
          subst hk
          exact hc
        | k + 1 =>
          simp only [List.getElem?_cons_succ] at hk
          have hnone : findHit pos rest = none := by
            cases ho : findHit pos rest with
            | none => rfl
            | some i => rw [ho] at h; simp at h
          exact ih.mp hnone k rk hk
    · intro h
      unfold findHit
      have hc : ¬((r.start : Int) ≤ pos ∧ pos ≤ (r.endPos : Int)) :=
        h 0 r (by simp)
      rw [if_neg hc]
      have hnone : findHit pos rest = none :=
        ih.mpr (fun k rk hk => h (k + 1) rk (by simpa using hk))
      rw [hnone]
      rfl

/-- A successful `findHit` is the first containing range. -/
lemma findHit_eq_some {pos : Int} : ∀ {rs : List Range} {i : Nat},
    findHit pos rs = some i →
      ∃ ri : Range, rs[i]? = some ri
        ∧ (ri.start : Int) ≤ pos ∧ pos ≤ (ri.endPos : Int)
        ∧ ∀ (k : Nat) (rk : Range), k < i → rs[k]? = some rk →
            ¬((rk.start : Int) ≤ pos ∧ pos ≤ (rk.endPos : Int)) := by
  intro rs
  induction rs with
  | nil => intro i h; simp [findHit] at h
  | cons r rest ih =>
    intro i h
    unfold findHit at h
    by_cases hc : (r.start : Int) ≤ pos ∧ pos ≤ (r.endPos : Int)
    · rw [if_pos hc] at h
      cases h
      exact ⟨r, by simp, hc.1, hc.2, fun k rk hk => by omega⟩
    · rw [if_neg hc] at h
      cases ho : findHit pos rest with
      | none => rw [ho] at h; simp at h
      | some i' =>
        rw [ho] at h
        simp only [Option.map_some', Option.some.injEq] at h
        subst h
        obtain ⟨ri, hri, h1, h2, hfirst⟩ := ih ho
        refine ⟨ri, by simpa using hri, h1, h2, ?_⟩
        intro k rk hk hkr
        match k with
        | 0 =>
          simp only [List.getElem?_cons_zero, Option.some.injEq] at hkr
          subst hkr
          exact hc
        | k + 1 =>
          simp only [List.getElem?_cons_succ] at hkr
          exact hfirst k rk (by omega) hkr

/-- `findSep` finds the first strictly-between pair and applies the
closer-neighbour tie-break. -/
lemma findSep_at {pos : Int} : ∀ {rs : List Range} {j : Nat} {rj rj1 : Range},
    rs[j]? = some rj → rs[j+1]? = some rj1 →
    (rj.endPos : Int) < pos → pos < (rj1.start : Int) →
    (∀ (k : Nat) (rk rk1 : Range), k < j → rs[k]? = some rk → rs[k+1]? = some rk1 →
      ¬((rk.endPos : Int) < pos ∧ pos < (rk1.start : Int))) →
    findSep pos rs =
      some (if pos - (rj.endPos : Int) ≤ (rj1.start : Int) - pos then j else j + 1) := by
  intro rs
  induction rs with
  | nil => intro j rj rj1 hj; simp at hj
  | cons r1 rest ih =>
    intro j rj rj1 hj hj1 hl hr hfirst
    cases rest with
    | nil =>
      match j with
      | 0 => simp at hj1
    | cons r2 rest' =>
      match j with
      | 0 =>
        simp only [List.getElem?_cons_zero, Option.some.injEq] at hj
        simp only [List.getElem?_cons_succ, List.getElem?_cons_zero,
          Option.some.injEq] at hj1
        subst hj
        subst hj1
        unfold findSep
        rw [if_pos ⟨hl, hr⟩]
      | j + 1 =>
        simp only [List.getElem?_cons_succ] at hj
        rw [List.getElem?_cons_succ] at hj1
        have hc0 : ¬((r1.endPos : Int) < pos ∧ pos < (r2.start : Int)) :=
          hfirst 0 r1 r2 (by omega) (by simp) (by simp)
        unfold findSep
        rw [if_neg hc0]
        have hrec := ih hj hj1 hl hr (fun k rk rk1 hk hks hks1 =>
          hfirst (k + 1) rk rk1 (by omega) (by simpa using hks) (by simpa using hks1))
        rw [hrec]
        simp only [Option.map_some', Option.some.injEq]
        by_cases hd : pos - (rj.endPos : Int) ≤ (rj1.start : Int) - pos
        · rw [if_pos hd, if_pos hd]
        · rw [if_neg hd, if_neg hd]

end SegIn

namespace SegIn

/-- An optional-indexing hit is a member of the list. -/
lemma memElem {rs : List Range} {j : Nat} {r : Range} (h : rs[j]? = some r) :
    r ∈ rs := by
  obtain ⟨hl, he⟩ := List.getElem?_eq_some.mp h
  exact he ▸ List.getElem_mem hl

/-- The last element of `r0 :: rest` as an optional indexed element. -/
lemma lastD_getElem (r0 : Range) (rest : List Range) :
    (r0 :: rest)[(r0 :: rest).length - 1]? = some (rest.getLastD r0) := by
  rw [← List.getLast?_eq_getElem?, List.getLastD_eq_getLast?]
  cases rest with
  | nil => simp
  | cons r1 rest' =>
    cases hx : (r1 :: rest').getLast? with
    | none => simp at hx
    | some x => simp [List.getLast?_cons_cons, hx]

/-- C3: for a chain-ordered list of well-formed ranges, an offset strictly
between two adjacent ranges maps to the numerically closer neighbour,
measured from the left range's end and the right range's start, with an
exact tie returning the left (earlier) index; an offset equal to a range's
start or end is resolved, inclusively at both ends, to the first range
containing it. -/
theorem claim_C3_separator_and_boundary (pos : Int) (rs : List Range)
    (hchain : List.Chain' (fun a b => a.endPos ≤ b.start) rs)
    (hwf : ∀ r ∈ rs, r.start ≤ r.endPos) :
    (∀ (j : Nat) (rj rj1 : Range), rs[j]? = some rj → rs[j + 1]? = some rj1 →
        (rj.endPos : Int) < pos → pos < (rj1.start : Int) →
        getCursorSegment pos rs =
          if pos - (rj.endPos : Int) ≤ (rj1.start : Int) - pos then j else j + 1)
    ∧ (∀ (j : Nat) (rj : Range), rs[j]? = some rj →
        (pos = (rj.start : Int) ∨ pos = (rj.endPos : Int)) →
        ∃ (i : Nat) (ri : Range), getCursorSegment pos rs = i ∧ rs[i]? = some ri
          ∧ (ri.start : Int) ≤ pos ∧ pos ≤ (ri.endPos : Int)
          ∧ ∀ (k : Nat) (rk : Range), k < i → rs[k]? = some rk →
              ¬((rk.start : Int) ≤ pos ∧ pos ≤ (rk.endPos : Int))) := by
  constructor
  · intro j rj rj1 hj hj1 hl hr
    obtain ⟨hj1len, _⟩ := List.getElem?_eq_some.mp hj1
    have hwfj : rj.start ≤ rj.endPos := hwf rj (memElem hj)
    have hwfj1 : rj1.start ≤ rj1.endPos := hwf rj1 (memElem hj1)
    have hnocont : ∀ (k : Nat) (rk : Range), rs[k]? = some rk →
        ¬((rk.start : Int) ≤ pos ∧ pos ≤ (rk.endPos : Int)) := by
      intro k rk hk hcont
      obtain ⟨hc1, hc2⟩ := hcont
      rcases Nat.lt_trichotomy k j with hkj | hkj | hkj
      · have h1 := ranges_chain_le hchain hwf k j rk rj hkj hk hj
        omega
      · subst hkj
        rw [hj] at hk
        cases hk
        omega
      · rcases Nat.lt_or_ge (j + 1) k with hkj2 | hkj2
        · have h1 := ranges_chain_le hchain hwf (j + 1) k rj1 rk hkj2 hj1 hk
          omega
        · have hke : k = j + 1 := by omega
          subst hke
          rw [hj1] at hk
          cases hk
          omega
    have hhit : findHit pos rs = none := findHit_eq_none.mpr hnocont
    cases rs with
    | nil => simp at hj
    | cons r0 rest =>
      have h0 : (r0 :: rest)[0]? = some r0 := by simp
      have hns : ¬ pos < (r0.start : Int) := by
        rcases Nat.eq_zero_or_pos j with hj0 | hj0
        · subst hj0
          rw [h0] at hj
          cases hj
          omega
        · have h1 := ranges_chain_le hchain hwf 0 j r0 rj hj0 h0 hj
          have h2 := hwf r0 (memElem h0)
          omega
      have hlelem : (r0 :: rest)[(r0 :: rest).length - 1]? =
          some (rest.getLastD r0) := lastD_getElem r0 rest
      have hnl : ¬ pos > ((rest.getLastD r0).endPos : Int) := by
        have h2 := hwf _ (memElem hlelem)
        rcases Nat.lt_or_ge (j + 1) ((r0 :: rest).length - 1) with hlt | hge
        · have h1 := ranges_chain_le hchain hwf (j + 1) ((r0 :: rest).length - 1)
            rj1 (rest.getLastD r0) hlt hj1 hlelem
          omega
        · have hke : j + 1 = (r0 :: rest).length - 1 := by
            simp only [List.length_cons] at hj1len hge ⊢
            omega
          rw [← hke] at hlelem
          rw [hj1] at hlelem
          cases hlelem
          omega
      have hfirst : ∀ (k : Nat) (rk rk1 : Range), k < j →
          (r0 :: rest)[k]? = some rk → (r0 :: rest)[k + 1]? = some rk1 →
          ¬((rk.endPos : Int) < pos ∧ pos < (rk1.start : Int)) := by
        intro k rk rk1 hk hks hks1 hcond
        obtain ⟨hs1, hs2⟩ := hcond
        rcases Nat.lt_or_ge (k + 1) j with hlt | hge
        · have h1 := ranges_chain_le hchain hwf (k + 1) j rk1 rj hlt hks1 hj
          have h2 := hwf rk1 (memElem hks1)
          omega
        · have hke : k + 1 = j := by omega
          subst hke
          rw [hj] at hks1
          cases hks1
          omega
      have hsep := findSep_at hj hj1 hl hr hfirst
      simp only [getCursorSegment, hhit]
      rw [if_neg hns, if_neg hnl]
      simp only [hsep]
  · intro j rj hj hpos
    have hwfj : rj.start ≤ rj.endPos := hwf rj (memElem hj)
    have hcont : (rj.start : Int) ≤ pos ∧ pos ≤ (rj.endPos : Int) := by
      rcases hpos with h | h <;> subst h <;> constructor <;> omega
    cases hh : findHit pos rs with
    | none => exact absurd hcont (findHit_eq_none.mp hh j rj hj)
    | some i =>
      obtain ⟨ri, hri, h1, h2, hfst⟩ := findHit_eq_some hh
      refine ⟨i, ri, ?_, hri, h1, h2, hfst⟩
      cases rs with
      | nil => simp at hj
      | cons r0 rest => simp [getCursorSegment, hh]

end SegIn

namespace SegIn

/-- Witness for C3: cursor at offset 3 between ranges `[0,2)` and `[5,7)` is
closer to the left range and maps to index 0. -/
theorem claim_C3_witness :
    getCursorSegment 3 [(⟨0, 2, ['a', 'b']⟩ : Range), ⟨5, 7, ['c', 'd']⟩] = 0 := by
  have h := (claim_C3_separator_and_boundary 3
      [(⟨0, 2, ['a', 'b']⟩ : Range), ⟨5, 7, ['c', 'd']⟩]
      (by simp [List.chain'_cons]) (by decide)).1 0 ⟨0, 2, ['a', 'b']⟩ ⟨5, 7, ['c', 'd']⟩
      (by decide) (by decide) (by decide) (by decide)
  simpa using h

end SegIn
namespace SegIn

/-- C4: `shouldAutoAdvance` returns true exactly when: the descriptor has an
explicit `maxLength` and the buffer length is at least `maxLength`;
otherwise, if the descriptor has no `max`, never; otherwise, for a decimal
segment (fractional step), when the buffer length reaches the length of
`max.toFixed(decimal places of step)`; otherwise (integer/hex), when the
buffer length reaches the length of `floor(max)` rendered in the radix, or
earlier when the buffer's numeric value times the radix already exceeds
`max`. -/
theorem claim_C4_should_auto_advance (seg : SI.Seg) (buffer : List Char) (radix : Nat) :
    SI.shouldAutoAdvance seg buffer radix = true ↔
      ((∃ ml, seg.maxLength = some ml ∧ buffer.length ≥ ml)
       ∨ (seg.maxLength = none ∧ ∃ mx, seg.max = some mx ∧
           ((SI.isDecimalSegment seg = true ∧
              buffer.length ≥ (jsToFixed mx (match seg.step with
                | none => 0
                | some q => decDigits q)).length)
            ∨ (SI.isDecimalSegment seg = false ∧
               (buffer.length ≥ (jsIntToString ⌊mx⌋ radix).length
                ∨ ∃ v, jsParseInt buffer radix = some v ∧
                    ((v * (radix : Int) : Int) : ℚ) > mx))))) := by
  unfold SI.shouldAutoAdvance
  cases hml : seg.maxLength with
  | some ml => simp [hml]
  | none =>
    cases hmx : seg.max with
    | none => simp [hmx]
    | some mx =>
      cases hdec : SI.isDecimalSegment seg with
      | true => simp [hmx, hdec]
      | false =>
        cases hpi : jsParseInt buffer radix with
        | none => simp [hmx, hdec, hpi]
        | some v =>
          by_cases hlen : buffer.length ≥ (jsIntToString ⌊mx⌋ radix).length
          · simp [hmx, hdec, hpi, hlen]
          · simp [hmx, hdec, hpi, hlen]

/-- Witness for C4 at `max = 59`, buffer `"6"`, radix 10: the buffer's value
times the radix exceeds the max, so auto-advance fires immediately. -/
theorem claim_C4_witness :
    SI.shouldAutoAdvance { max := some 59 } ['6'] 10 = true :=
  (claim_C4_should_auto_advance { max := some 59 } ['6'] 10).mpr
    (Or.inr ⟨rfl, 59, rfl, Or.inr ⟨rfl, Or.inr ⟨6, by decide, by norm_num⟩⟩⟩)

end SegIn
namespace SegIn

/-- C10: unlike the clamping `focusSegment`, `getSegmentValue` does not
clamp its index: every negative index and every index at or beyond the
number of parsed elements yields no value (`undefined`), not the value of a
clamped segment, and never an error. -/
theorem claim_C10_get_segment_value_unclamped (cfg : SI.Config) (st : SI.St)
    (index : Int)
    (h : index < 0 ∨ ((cfg.parse st.value).length : Int) ≤ index) :
    SI.getSegmentValue cfg st index = none := by
  unfold SI.getSegmentValue
  rcases h with h | h
  · rw [if_pos h]
  · rw [if_neg (by omega)]
    apply List.getElem?_eq_none
    omega

/-- Witness for C10: a two-element parse with index 5 yields no value. -/
theorem claim_C10_witness :
    SI.getSegmentValue
      { segments := [{}, {}], format := fun vs => List.intercalate ['.'] vs,
        parse := fun s => s.splitOn '.', invalidMessage := [] }
      { value := ['1', '.', '2'], activeSegment := 0, segmentBuffer := [],
        customValidity := [], selection := none }
      5 = none :=
  claim_C10_get_segment_value_unclamped _ _ 5 (Or.inr (by decide))

end SegIn
namespace SegIn

lemma highlight_value (st : SI.St) (idx : Nat) (rs : List Range) :
    (SI.highlightSegment st idx rs).value = st.value := by
  unfold SI.highlightSegment
  cases rs[idx]? <;> rfl

lemma highlight_buffer (st : SI.St) (idx : Nat) (rs : List Range) :
    (SI.highlightSegment st idx rs).segmentBuffer = st.segmentBuffer := by
  unfold SI.highlightSegment
  cases rs[idx]? <;> rfl

lemma highlight_active (st : SI.St) (idx : Nat) (rs : List Range) :
    (SI.highlightSegment st idx rs).activeSegment = st.activeSegment := by
  unfold SI.highlightSegment
  cases rs[idx]? <;> rfl

lemma highlight_validity (st : SI.St) (idx : Nat) (rs : List Range) :
    (SI.highlightSegment st idx rs).customValidity = st.customValidity := by
  unfold SI.highlightSegment
  cases rs[idx]? <;> rfl

lemma focus_value (cfg : SI.Config) (st : SI.St) (i : Int) :
    (SI.focusSegment cfg st i).value = st.value := by
  unfold SI.focusSegment
  rw [highlight_value]

lemma focus_buffer (cfg : SI.Config) (st : SI.St) (i : Int) :
    (SI.focusSegment cfg st i).segmentBuffer = [] := by
  unfold SI.focusSegment
  rw [highlight_buffer]

lemma focus_active (cfg : SI.Config) (st : SI.St) (i : Int) :
    (SI.focusSegment cfg st i).activeSegment =
      (max 0 (min i ((cfg.segments.length : Int) - 1))).toNat := by
  unfold SI.focusSegment
  rw [highlight_active]

lemma focus_validity (cfg : SI.Config) (st : SI.St) (i : Int) :
    (SI.focusSegment cfg st i).customValidity = st.customValidity := by
  unfold SI.focusSegment
  rw [highlight_validity]

/-- State effect of `_advanceSegment`: the text is untouched, the buffer is
cleared, and the active segment moves to the next one except on the last. -/
lemma advance_spec (cfg : SI.Config) (st : SI.St) :
    (SI.advanceSegment cfg st).value = st.value
    ∧ (SI.advanceSegment cfg st).segmentBuffer = []
    ∧ (SI.advanceSegment cfg st).activeSegment =
        (if st.activeSegment < cfg.segments.length - 1 then st.activeSegment + 1
         else st.activeSegment) := by
  unfold SI.advanceSegment
  by_cases h : st.activeSegment < cfg.segments.length - 1
  · rw [if_pos h]
    refine ⟨focus_value .., focus_buffer .., ?_⟩
    rw [focus_active, if_pos h]
    omega
  · rw [if_neg h, if_neg h]
    exact ⟨highlight_value .., highlight_buffer .., highlight_active ..⟩

/-- C5: on a non-decimal segment with a defined max, a typed character that
fails the pattern is silently absorbed (the state is unchanged apart from
placeholder materialisation), and a typed character whose appended buffer
would numerically exceed the max is absorbed with the buffered value left
committed as-is while the active segment advances. -/
theorem claim_C5_typed_absorption (cfg : SI.Config) (st : SI.St) (key : Char)
    (seg : SI.Seg) (M : ℚ)
    (hseg : cfg.segments[st.activeSegment]? = some seg)
    (hmax : seg.max = some M)
    (hdec : SI.isDecimalSegment seg = false) :
    ((∃ p, seg.pattern = some p ∧ p key = false) →
        SI.handleSegmentInput cfg st key =
          (if st.value = [] then { st with value := SI.formattedPlaceholder cfg } else st))
    ∧ ((seg.pattern.map (fun p => p key)).getD true = true →
       ∀ v, jsParseInt (st.segmentBuffer ++ [key]) (seg.radix.getD 10) = some v →
        (v : ℚ) > M →
        (SI.handleSegmentInput cfg st key =
            SI.advanceSegment cfg
              (if st.value = [] then { st with value := SI.formattedPlaceholder cfg } else st)
         ∧ (SI.handleSegmentInput cfg st key).value =
            (if st.value = [] then SI.formattedPlaceholder cfg else st.value)
         ∧ (SI.handleSegmentInput cfg st key).segmentBuffer = []
         ∧ (SI.handleSegmentInput cfg st key).activeSegment =
            (if st.activeSegment < cfg.segments.length - 1 then st.activeSegment + 1
             else st.activeSegment))) := by
  constructor
  · rintro ⟨p, hp, hpk⟩
    by_cases hv : st.value = [] <;>
      simp [SI.handleSegmentInput, hseg, hv, hp, hpk]
  · intro hpat v hparse hgt
    by_cases hv : st.value = []
    · have heq : SI.handleSegmentInput cfg st key =
          SI.advanceSegment cfg { st with value := SI.formattedPlaceholder cfg } := by
        simp [SI.handleSegmentInput, hseg, hv, hpat, hmax, hdec, hparse, hgt]
      obtain ⟨h1, h2, h3⟩ :=
        advance_spec cfg { st with value := SI.formattedPlaceholder cfg }
      rw [heq]
      simp [hv, h1, h2, h3]
    · have heq : SI.handleSegmentInput cfg st key = SI.advanceSegment cfg st := by
        simp [SI.handleSegmentInput, hseg, hv, hpat, hmax, hdec, hparse, hgt]
      obtain ⟨h1, h2, h3⟩ := advance_spec cfg st
      rw [heq]
      simp [hv, h1, h2, h3]

end SegIn

namespace SegIn

/-- Duration-style two-segment configuration for the C5 witness. -/
def wcfgC5 : SI.Config := {
  segments := [{ max := some 23, pattern := some Char.isDigit },
               { max := some 59, pattern := some Char.isDigit }],
  format := fun vs => List.intercalate [':'] vs,
  parse := fun s => s.splitOn ':',
  invalidMessage := ['!'] }

/-- State for the C5 witness: minutes segment active with `"6"` buffered. -/
def wstC5 : SI.St := {
  value := ['1', '2', ':', '3', '4'], activeSegment := 1, segmentBuffer := ['6'],
  customValidity := [], selection := none }

/-- Witness for C5: typing `'7'` after a buffered `"6"` in a max-59 segment
(67 > 59) leaves the text as-is, clears the buffer and stays on the last
segment. -/
theorem claim_C5_witness :
    (SI.handleSegmentInput wcfgC5 wstC5 '7').value = ['1', '2', ':', '3', '4']
    ∧ (SI.handleSegmentInput wcfgC5 wstC5 '7').segmentBuffer = []
    ∧ (SI.handleSegmentInput wcfgC5 wstC5 '7').activeSegment = 1 := by
  have h := (claim_C5_typed_absorption wcfgC5 wstC5 '7'
      { max := some 59, pattern := some Char.isDigit } 59 rfl rfl (by decide)).2
      (by decide) 67 (by decide) (by norm_num)
  refine ⟨?_, h.2.2.1, ?_⟩
  · have := h.2.1
    simpa [wstC5] using this
  · have := h.2.2.2
    simpa [wstC5, wcfgC5] using this

end SegIn
namespace SegIn

/-- Normal form of the Backspace handler's state update. -/
lemma backspace_eq (cfg : SI.Config) (st : SI.St) :
    SI.backspace cfg st =
      SI.highlightSegment
        { value := cfg.format ((cfg.parse st.value).set st.activeSegment
            ((SI.placeholderValues cfg).getD st.activeSegment [])),
          activeSegment := st.activeSegment, segmentBuffer := [],
          customValidity := SI.computeValidity cfg
            (cfg.format ((cfg.parse st.value).set st.activeSegment
              ((SI.placeholderValues cfg).getD st.activeSegment []))),
          selection := st.selection }
        st.activeSegment
        (getSegmentRanges
          (cfg.format ((cfg.parse st.value).set st.activeSegment
            ((SI.placeholderValues cfg).getD st.activeSegment [])))
          cfg.parse cfg.format) := rfl

/-- C7: Backspace resets the active segment's slot to its placeholder string,
clears the keystroke buffer, leaves the active segment index and all other
segments' values unchanged, and refreshes validity and the displayed
selection. -/
theorem claim_C7_backspace (cfg : SI.Config) (st : SI.St) (p : List Char)
    (hp : (SI.placeholderValues cfg)[st.activeSegment]? = some p)
    (hlen : st.activeSegment < (cfg.parse st.value).length)
    (hrt : cfg.parse (cfg.format ((cfg.parse st.value).set st.activeSegment p))
        = (cfg.parse st.value).set st.activeSegment p) :
    (SI.backspace cfg st).activeSegment = st.activeSegment
    ∧ (SI.backspace cfg st).segmentBuffer = []
    ∧ SI.getSegmentValue cfg (SI.backspace cfg st) (st.activeSegment : Int) = some p
    ∧ (∀ j : Nat, j ≠ st.activeSegment →
        SI.getSegmentValue cfg (SI.backspace cfg st) (j : Int) =
          SI.getSegmentValue cfg st (j : Int))
    ∧ (SI.backspace cfg st).customValidity =
        SI.computeValidity cfg (SI.backspace cfg st).value
    ∧ (SI.backspace cfg st).selection =
        (match (SI.getSegmentRangesM cfg (SI.backspace cfg st))[st.activeSegment]? with
         | some r => some (r.start, r.endPos)
         | none => st.selection) := by
  have hgetD : (SI.placeholderValues cfg).getD st.activeSegment [] = p := by
    rw [List.getD_eq_getElem?_getD, hp]
    rfl
  rw [backspace_eq, hgetD]
  refine ⟨highlight_active .., highlight_buffer .., ?_, ?_, ?_, ?_⟩
  · unfold SI.getSegmentValue
    rw [if_neg (by omega), highlight_value]
    simp only [Int.toNat_natCast]
    rw [hrt]
    exact List.getElem?_set_self (by simpa using hlen)
  · intro j hj
    unfold SI.getSegmentValue
    rw [if_neg (by omega), if_neg (by omega), highlight_value]
    simp only [Int.toNat_natCast]
    rw [hrt]
    exact List.getElem?_set_ne (fun h => hj h.symm)
  · rw [highlight_validity, highlight_value]
  · unfold SI.getSegmentRangesM
    rw [highlight_value]
    unfold SI.highlightSegment
    cases h : (getSegmentRanges
        (cfg.format ((cfg.parse st.value).set st.activeSegment p))
        cfg.parse cfg.format)[st.activeSegment]? <;> simp [h]

end SegIn

namespace SegIn

/-- Duration-style configuration with explicit placeholders for the C7 and
C8 witnesses. -/
def wcfgC7 : SI.Config := {
  segments := [{ placeholder := some ['h', 'h'] }, { placeholder := some ['m', 'm'] }],
  format := fun vs => List.intercalate [':'] vs,
  parse := fun s => s.splitOn ':',
  invalidMessage := ['!'] }

/-- State for the C7 witness: both segments filled, hours active. -/
def wstC7 : SI.St := {
  value := ['1', '2', ':', '3', '4'], activeSegment := 0, segmentBuffer := ['9'],
  customValidity := [], selection := none }

/-- Witness for C7: Backspace on the hours segment of `"12:34"` restores the
`"hh"` placeholder, clears the buffer, keeps focus, and leaves the minutes
segment at `"34"`. -/
theorem claim_C7_witness :
    (SI.backspace wcfgC7 wstC7).activeSegment = 0
    ∧ (SI.backspace wcfgC7 wstC7).segmentBuffer = []
    ∧ SI.getSegmentValue wcfgC7 (SI.backspace wcfgC7 wstC7) ((0 : Nat) : Int) = some ['h', 'h']
    ∧ SI.getSegmentValue wcfgC7 (SI.backspace wcfgC7 wstC7) ((1 : Nat) : Int) = some ['3', '4'] := by
  have h := claim_C7_backspace wcfgC7 wstC7 ['h', 'h'] (by decide) (by decide) (by decide)
  refine ⟨h.1, h.2.1, h.2.2.1, ?_⟩
  have h1 := h.2.2.2.1 1 (by decide)
  rw [h1]
  decide

/-- `_isPlaceholderState` is true exactly when the value is empty or every
segment's parsed value equals its placeholder. -/
lemma isPlaceholderState_iff (cfg : SI.Config) (st : SI.St) :
    SI.isPlaceholderState cfg st = true ↔
      (st.value = [] ∨ ∀ i : Nat, i < (SI.placeholderValues cfg).length →
        (cfg.parse st.value)[i]? = (SI.placeholderValues cfg)[i]?) := by
  unfold SI.isPlaceholderState
  by_cases hv : st.value = []
  · simp [hv]
  · simp [hv, List.all_eq_true, List.mem_range]

/-- C8: at blur time, when every segment's current value equals its
placeholder (or the text is already empty) the text is cleared, the active
segment is reset to 0 and the buffer is cleared; when some segment holds a
non-placeholder value the text is untouched; in both cases validity is
recomputed. -/
theorem claim_C8_blur (cfg : SI.Config) (st : SI.St) :
    ((st.value = [] ∨ ∀ i : Nat, i < (SI.placeholderValues cfg).length →
        (cfg.parse st.value)[i]? = (SI.placeholderValues cfg)[i]?) →
      (SI.onBlurOut cfg st).value = []
      ∧ (SI.onBlurOut cfg st).activeSegment = 0
      ∧ (SI.onBlurOut cfg st).segmentBuffer = []
      ∧ (SI.onBlurOut cfg st).customValidity = [])
    ∧ ((st.value ≠ [] ∧ ∃ i : Nat, i < (SI.placeholderValues cfg).length ∧
        (cfg.parse st.value)[i]? ≠ (SI.placeholderValues cfg)[i]?) →
      (SI.onBlurOut cfg st).value = st.value
      ∧ (SI.onBlurOut cfg st).activeSegment = st.activeSegment
      ∧ (SI.onBlurOut cfg st).segmentBuffer = st.segmentBuffer
      ∧ (SI.onBlurOut cfg st).customValidity = SI.computeValidity cfg st.value) := by
  constructor
  · intro h
    have hps : SI.isPlaceholderState cfg st = true := (isPlaceholderState_iff cfg st).mpr h
    unfold SI.onBlurOut SI.updateValidity
    rw [if_pos hps]
    refine ⟨rfl, rfl, rfl, ?_⟩
    unfold SI.computeValidity
    rfl
  · rintro ⟨hne, i, hi, hiv⟩
    have hps : SI.isPlaceholderState cfg st ≠ true := by
      simp only [ne_eq, isPlaceholderState_iff]
      push_neg
      exact ⟨hne, i, hi, hiv⟩
    unfold SI.onBlurOut SI.updateValidity
    rw [if_neg hps]
    exact ⟨rfl, rfl, rfl, rfl⟩

/-- Witness for C8: blurring `"hh:mm"` (all placeholders) clears the field
and resets state; the theorem is applied with the all-placeholder hypothesis
discharged concretely. -/
theorem claim_C8_witness :
    (SI.onBlurOut wcfgC7 { wstC7 with value := ['h', 'h', ':', 'm', 'm'] }).value = []
    ∧ (SI.onBlurOut wcfgC7 { wstC7 with value := ['h', 'h', ':', 'm', 'm'] }).activeSegment = 0
    ∧ (SI.onBlurOut wcfgC7 { wstC7 with value := ['h', 'h', ':', 'm', 'm'] }).segmentBuffer = []
    ∧ (SI.onBlurOut wcfgC7 { wstC7 with value := ['h', 'h', ':', 'm', 'm'] }).customValidity = [] :=
  (claim_C8_blur wcfgC7 { wstC7 with value := ['h', 'h', ':', 'm', 'm'] }).1
    (Or.inr (by decide))

end SegIn
namespace SegIn

/-- C6: with non-empty text the custom validity is set to the configured
invalid message when some non-action segment's current parsed value equals
its placeholder, and cleared otherwise; with empty text it is always
cleared. -/
theorem claim_C6_validity (cfg : SIv2.Config) (st : SIv2.St) :
    ((st.value ≠ [] ∧ ∃ i : Nat, i < (SIv2.placeholderValues cfg).length ∧
        (cfg.segments[i]?.any SIv2.isActionSegment) = false ∧
        (cfg.parse (SIv2.stripZWS st.value))[i]? = (SIv2.placeholderValues cfg)[i]?) →
      (SIv2.updateValidity cfg st).customValidity = cfg.invalidMessage)
    ∧ ((st.value ≠ [] ∧ ∀ i : Nat, i < (SIv2.placeholderValues cfg).length →
        (cfg.segments[i]?.any SIv2.isActionSegment) = false →
        (cfg.parse (SIv2.stripZWS st.value))[i]? ≠ (SIv2.placeholderValues cfg)[i]?) →
      (SIv2.updateValidity cfg st).customValidity = [])
    ∧ (st.value = [] → (SIv2.updateValidity cfg st).customValidity = []) := by
  refine ⟨?_, ?_, ?_⟩
  · rintro ⟨hne, i, hi, hact, hval⟩
    unfold SIv2.updateValidity SIv2.computeValidity
    simp only
    rw [if_neg hne, if_pos]
    rw [List.any_eq_true]
    exact ⟨i, List.mem_range.mpr hi, by simp [hact, hval]⟩
  · rintro ⟨hne, hall⟩
    unfold SIv2.updateValidity SIv2.computeValidity
    simp only
    rw [if_neg hne, if_neg]
    rw [List.any_eq_true]
    rintro ⟨i, hmem, hcond⟩
    rw [List.mem_range] at hmem
    simp only [Bool.and_eq_true, Bool.not_eq_true', decide_eq_true_eq] at hcond
    exact hall i hmem hcond.1 hcond.2
  · intro hv
    unfold SIv2.updateValidity SIv2.computeValidity
    simp only
    rw [if_pos hv]

/-- Date-with-icon configuration for the C6 witness: a day segment and an
action (calendar icon) segment whose placeholder never counts. -/
def wcfgC6 : SIv2.Config := {
  segments := [{ placeholder := some ['d', 'd'] },
               { placeholder := some ['#'], onClick := true }],
  format := fun vs => List.intercalate [' '] vs,
  parse := fun s => s.splitOn ' ',
  invalidMessage := ['i', 'n', 'c'] }

/-- Witness for C6: with text `"dd #"` the editable segment still shows its
placeholder, so the custom validity carries the configured message. -/
theorem claim_C6_witness :
    (SIv2.updateValidity wcfgC6
        { value := ['d', 'd', ' ', '#'], activeSegment := 0, segmentBuffer := [],
          customValidity := [], selection := none,
          actionClassOn := false }).customValidity = ['i', 'n', 'c'] :=
  (claim_C6_validity wcfgC6
      { value := ['d', 'd', ' ', '#'], activeSegment := 0, segmentBuffer := [],
        customValidity := [], selection := none, actionClassOn := false }).1
    ⟨by decide, 0, by decide, by decide, by decide⟩

end SegIn
namespace SegIn

lemma highlight2_value (st : SIv2.St) (idx : Nat) (rs : List Range) :
    (SIv2.highlightSegment st idx rs).value = st.value := by
  unfold SIv2.highlightSegment
  cases rs[idx]? <;> rfl

lemma focus2_value (cfg : SIv2.Config) (st : SIv2.St) (i : Int) :
    (SIv2.focusSegment cfg st i).value = st.value := by
  unfold SIv2.focusSegment
  simp only
  cases htgt : SIv2.focusTarget cfg
      ((max 0 (min i ((cfg.segments.length : Int) - 1))).toNat) with
  | none => rfl
  | some cl =>
    cases h : cfg.segments[cl]? <;> (rw [highlight2_value]; simp [h])

lemma updateValidity2_value (cfg : SIv2.Config) (st : SIv2.St) :
    (SIv2.updateValidity cfg st).value = st.value := rfl

/-- `findIdx?` on a duplicate-free list locates an element at its index. -/
lemma findIdx?_nodup {opts : List (List Char)} {i : Nat} {v : List Char}
    (hnd : opts.Nodup) (h : opts[i]? = some v) :
    opts.findIdx? (fun o => decide (o = v)) = some i := by
  induction opts generalizing i with
  | nil => simp at h
  | cons o os ih =>
    match i with
    | 0 =>
      simp only [List.getElem?_cons_zero, Option.some.injEq] at h
      subst h
      rw [List.findIdx?_cons]
      simp
    | i + 1 =>
      simp only [List.getElem?_cons_succ] at h
      have hvmem : v ∈ os := by
        obtain ⟨hl, he⟩ := List.getElem?_eq_some.mp h
        exact he ▸ List.getElem_mem hl
      have hov : o ≠ v := by
        rintro rfl
        exact (List.nodup_cons.mp hnd).1 hvmem
      rw [List.findIdx?_cons, if_neg (by simp [hov]), List.findIdx?_succ,
        ih (List.nodup_cons.mp hnd).2 h]
      rfl

lemma emod_inc {i k : Nat} :
    (((i : Int) + 1 + (k : Int)) % (k : Int)).toNat = (i + 1) % k := by
  have h1 : ((i : Int) + 1 + (k : Int)) = ((i + 1 + k : Nat) : Int) := by push_cast; ring
  rw [h1, ← Int.natCast_mod, Int.toNat_natCast, Nat.add_mod_right]

lemma emod_dec {i k : Nat} (hik : i < k) :
    (((i : Int) + (-1) + (k : Int)) % (k : Int)).toNat = (i + k - 1) % k := by
  have h1 : ((i : Int) + (-1) + (k : Int)) = ((i + k - 1 : Nat) : Int) := by
    have h2 : (1 : Nat) ≤ i + k := by omega
    push_cast [h2]
    ring
  rw [h1, ← Int.natCast_mod, Int.toNat_natCast]

/-- `findIdx?` misses a value that is not in the list. -/
lemma findIdx?_not_mem {opts : List (List Char)} {v : List Char} (h : v ∉ opts) :
    opts.findIdx? (fun o => decide (o = v)) = none := by
  induction opts with
  | nil => rfl
  | cons o os ih =>
    have hov : o ≠ v := fun he => h (he ▸ List.mem_cons_self o os)
    rw [List.findIdx?_cons, if_neg (by simp [hov]), List.findIdx?_succ,
      ih (fun hm => h (List.mem_cons_of_mem o hm))]
    rfl

/-- The enum (`options`) branch of `#adjustSegment`: with the current
value's derived position known — its first index when found, 0 when the
`indexOf` scan misses — the written text replaces the slot with the
circularly shifted option. -/
lemma adjust_options_value (cfg : SIv2.Config) (st : SIv2.St) (index : Nat)
    (seg : SIv2.Seg) (opts : List (List Char)) (v : List Char) (i : Nat) (direction : Int)
    (hseg : cfg.segments[index]? = some seg)
    (hact : SIv2.isActionSegment seg = false)
    (htext : seg.type ≠ some "text".toList)
    (hopts : seg.options = some opts)
    (hne : st.value ≠ [])
    (hv : (SIv2.currentValues cfg st)[index]? = some v)
    (hfind : opts.findIdx? (fun o => decide (o = v)) = some i
      ∨ (opts.findIdx? (fun o => decide (o = v)) = none ∧ i = 0)) :
    (SIv2.adjustSegment cfg st index direction).value =
      SIv2.formatGuarded cfg ((SIv2.currentValues cfg st).set index
        (opts.getD ((((i : Int) + direction + (opts.length : Int))
          % (opts.length : Int)).toNat) [])) := by
  unfold SIv2.adjustSegment
  rcases hfind with hfind | ⟨hfind, rfl⟩ <;>
    simp only [hseg, hact, htext, hopts, hne, hv, hfind, Bool.false_eq_true, if_false,
      if_neg hne, ne_eq, not_false_iff, Nat.cast_zero, updateValidity2_value, focus2_value]

end SegIn

namespace SegIn

/-- Single-enum-segment configuration with a duplicated option, used to
refute C9 as stated. -/
def wcfgC9dup : SIv2.Config := {
  segments := [{ options := some [['a'], ['b'], ['b']] }],
  format := fun vs => vs.getD 0 [],
  parse := fun s => [s],
  invalidMessage := [] }

/-- State for the C9 counterexample: the enum segment shows `"b"`, which is
the option at position 1 and at position 2. -/
def wstC9dup : SIv2.St := {
  value := ['b'], activeSegment := 0, segmentBuffer := [],
  customValidity := [], selection := none, actionClassOn := false }

/-- Counterexample to C9 as stated: with options `["a","b","b"]` and current
value `"b"`, increment followed by decrement yields `"a"`, not the original
`"b"` (the scan always restarts from the value's first position, so
duplicate options break both the per-step position formula and the
increment-then-decrement round trip). -/
theorem claim_C9_counterexample :
    SIv2.getSegmentValue wcfgC9dup wstC9dup ((0 : Nat) : Int) = some ['b']
    ∧ SIv2.getSegmentValue wcfgC9dup
        (SIv2.adjustSegment wcfgC9dup (SIv2.adjustSegment wcfgC9dup wstC9dup 0 1) 0 (-1))
        ((0 : Nat) : Int) = some ['a']
    ∧ some (['a'] : List Char) ≠ some ['b'] :=
  ⟨by decide, by decide, by decide⟩

/-- C9 (amended): for a non-action, non-text segment with a duplicate-free,
non-empty options list of length `k`, where `i` is the (unique) position of
the current value in the list — or 0 when the current value is not in the
list, which the code treats as position 0 — increment writes the option at
`(i+1) mod k` and decrement the option at `(i-1+k) mod k`; and for a value
present in the list, given the format/parse round trip on the two written
value lists, increment followed by decrement restores the original
option. -/
theorem claim_C9_enum_cycling (cfg : SIv2.Config) (st : SIv2.St) (index : Nat)
    (seg : SIv2.Seg) (opts : List (List Char)) (v : List Char) (i : Nat)
    (hseg : cfg.segments[index]? = some seg)
    (hact : SIv2.isActionSegment seg = false)
    (htext : seg.type ≠ some "text".toList)
    (hopts : seg.options = some opts)
    (hknil : opts ≠ [])
    (hnodup : opts.Nodup)
    (hne : st.value ≠ [])
    (hv : (SIv2.currentValues cfg st)[index]? = some v)
    (hi : opts[i]? = some v ∨ (v ∉ opts ∧ i = 0)) :
    ((SIv2.adjustSegment cfg st index 1).value =
      SIv2.formatGuarded cfg ((SIv2.currentValues cfg st).set index
        (opts.getD ((i + 1) % opts.length) [])))
    ∧ ((SIv2.adjustSegment cfg st index (-1)).value =
      SIv2.formatGuarded cfg ((SIv2.currentValues cfg st).set index
        (opts.getD ((i + opts.length - 1) % opts.length) [])))
    ∧ (opts[i]? = some v →
       index < (SIv2.currentValues cfg st).length →
       SIv2.formatGuarded cfg ((SIv2.currentValues cfg st).set index
          (opts.getD ((i + 1) % opts.length) [])) ≠ [] →
       cfg.parse (SIv2.stripZWS (SIv2.formatGuarded cfg
          ((SIv2.currentValues cfg st).set index
            (opts.getD ((i + 1) % opts.length) [])))) =
        (SIv2.currentValues cfg st).set index (opts.getD ((i + 1) % opts.length) []) →
       cfg.parse (SIv2.stripZWS (SIv2.formatGuarded cfg
          ((SIv2.currentValues cfg st).set index v))) =
        (SIv2.currentValues cfg st).set index v →
       SIv2.getSegmentValue cfg
         (SIv2.adjustSegment cfg (SIv2.adjustSegment cfg st index 1) index (-1))
         ((index : Nat) : Int) = some v) := by
  have hk : i < opts.length := by
    rcases hi with hi | ⟨_, hi0⟩
    · exact (List.getElem?_eq_some.mp hi).1
    · subst hi0
      cases opts with
      | nil => exact absurd rfl hknil
      | cons o os => simp
  have hfind : opts.findIdx? (fun o => decide (o = v)) = some i
      ∨ (opts.findIdx? (fun o => decide (o = v)) = none ∧ i = 0) := by
    rcases hi with hi | ⟨hnm, hi0⟩
    · exact Or.inl (findIdx?_nodup hnodup hi)
    · exact Or.inr ⟨findIdx?_not_mem hnm, hi0⟩
  have hpart1 : (SIv2.adjustSegment cfg st index 1).value =
      SIv2.formatGuarded cfg ((SIv2.currentValues cfg st).set index
        (opts.getD ((i + 1) % opts.length) [])) := by
    rw [adjust_options_value cfg st index seg opts v i 1 hseg hact htext hopts hne hv hfind,
      emod_inc]
  refine ⟨hpart1, ?_, ?_⟩
  · rw [adjust_options_value cfg st index seg opts v i (-1) hseg hact htext hopts hne hv hfind,
      emod_dec hk]
  · intro hin hlen hne2 hrt1 hrt2
    have hcv1 : SIv2.currentValues cfg (SIv2.adjustSegment cfg st index 1) =
        (SIv2.currentValues cfg st).set index (opts.getD ((i + 1) % opts.length) []) := by
      unfold SIv2.currentValues
      rw [hpart1]
      exact hrt1
    have hne1 : (SIv2.adjustSegment cfg st index 1).value ≠ [] := by
      rw [hpart1]; exact hne2
    have hmodlt : (i + 1) % opts.length < opts.length := Nat.mod_lt _ (by omega)
    have hgetD1 : opts.getD ((i + 1) % opts.length) [] = opts[(i + 1) % opts.length] := by
      rw [List.getD_eq_getElem?_getD, List.getElem?_eq_getElem hmodlt]
      rfl
    have hio1 : opts[(i + 1) % opts.length]? =
        some (opts.getD ((i + 1) % opts.length) []) := by
      rw [hgetD1]
      exact List.getElem?_eq_getElem hmodlt
    have hv1 : (SIv2.currentValues cfg (SIv2.adjustSegment cfg st index 1))[index]? =
        some (opts.getD ((i + 1) % opts.length) []) := by
      rw [hcv1]
      exact List.getElem?_set_self (by simpa using hlen)
    have hfind1 : opts.findIdx?
          (fun o => decide (o = opts.getD ((i + 1) % opts.length) [])) =
            some ((i + 1) % opts.length)
        ∨ (opts.findIdx?
            (fun o => decide (o = opts.getD ((i + 1) % opts.length) [])) = none
           ∧ (i + 1) % opts.length = 0) :=
      Or.inl (findIdx?_nodup hnodup hio1)
    have h2 := adjust_options_value cfg (SIv2.adjustSegment cfg st index 1) index seg opts
      (opts.getD ((i + 1) % opts.length) []) ((i + 1) % opts.length) (-1)
      hseg hact htext hopts hne1 hv1 hfind1
    rw [emod_dec hmodlt] at h2
    have hback : ((i + 1) % opts.length + opts.length - 1) % opts.length = i := by
      rcases Nat.lt_or_ge (i + 1) opts.length with hlt | hge
      · rw [Nat.mod_eq_of_lt hlt]
        have he : i + 1 + opts.length - 1 = i + opts.length := by omega
        rw [he, Nat.add_mod_right]
        exact Nat.mod_eq_of_lt hk
      · have hke : i + 1 = opts.length := by omega
        rw [hke, Nat.mod_self]
        have he : 0 + opts.length - 1 = opts.length - 1 := by omega
        rw [he, Nat.mod_eq_of_lt (by omega)]
        omega
    rw [hback] at h2
    have hgetDi : opts.getD i [] = v := by
      rw [List.getD_eq_getElem?_getD, hin]
      rfl
    rw [hgetDi, hcv1, List.set_set] at h2
    unfold SIv2.getSegmentValue
    rw [if_neg (by omega)]
    simp only [Int.toNat_natCast]
    unfold SIv2.currentValues
    rw [h2, hrt2]
    exact List.getElem?_set_self (by simpa using hlen)

/-- Operator-enum configuration with distinct options for the C9 witness. -/
def wcfgC9 : SIv2.Config := {
  segments := [{ options := some [['+'], ['-'], ['*'], ['/']] }],
  format := fun vs => vs.getD 0 [],
  parse := fun s => [s],
  invalidMessage := [] }

/-- State for the C9 witness: the operator segment shows `"+"`. -/
def wstC9 : SIv2.St := {
  value := ['+'], activeSegment := 0, segmentBuffer := [],
  customValidity := [], selection := none, actionClassOn := false }

/-- State for the not-in-list half of the C9 witness: the operator segment
shows `"?"`, which is not one of the options. -/
def wstC9abs : SIv2.St := {
  value := ['?'], activeSegment := 0, segmentBuffer := [],
  customValidity := [], selection := none, actionClassOn := false }

/-- Witness for the amended C9: on distinct options `["+","-","*","/"]` at
`"+"`, increment writes `"-"`, decrement wraps to `"/"`, and increment then
decrement restores `"+"`; at the foreign value `"?"` (treated as position
0), increment writes `"-"` and decrement wraps to `"/"`. -/
theorem claim_C9_witness :
    (SIv2.adjustSegment wcfgC9 wstC9 0 1).value = ['-']
    ∧ (SIv2.adjustSegment wcfgC9 wstC9 0 (-1)).value = ['/']
    ∧ SIv2.getSegmentValue wcfgC9
        (SIv2.adjustSegment wcfgC9 (SIv2.adjustSegment wcfgC9 wstC9 0 1) 0 (-1))
        ((0 : Nat) : Int) = some ['+']
    ∧ (SIv2.adjustSegment wcfgC9 wstC9abs 0 1).value = ['-']
    ∧ (SIv2.adjustSegment wcfgC9 wstC9abs 0 (-1)).value = ['/'] := by
  have h := claim_C9_enum_cycling wcfgC9 wstC9 0
    { options := some [['+'], ['-'], ['*'], ['/']] } [['+'], ['-'], ['*'], ['/']]
    ['+'] 0 rfl (by decide) (by decide) rfl (by decide) (by decide) (by decide) (by decide)
    (Or.inl (by decide))
  have habs := claim_C9_enum_cycling wcfgC9 wstC9abs 0
    { options := some [['+'], ['-'], ['*'], ['/']] } [['+'], ['-'], ['*'], ['/']]
    ['?'] 0 rfl (by decide) (by decide) rfl (by decide) (by decide) (by decide) (by decide)
    (Or.inr ⟨by decide, rfl⟩)
  refine ⟨?_, ?_, h.2.2 (by decide) (by decide) (by decide) (by decide) (by decide),
    ?_, ?_⟩
  · have h1 := h.1
    simpa using h1
  · have h2 := h.2.1
    simpa using h2
  · have h1 := habs.1
    simpa using h1
  · have h2 := habs.2.1
    simpa using h2

end SegIn
